import Mathlib

/-!
Verification development for the omX remote object browser
(virtual hierarchical browser over flat key-value object storage).

Strings are embedded as lists of characters (`Str`); the string helpers
mirror the TypeScript source of the browser page component:
`ensureTrailingSlash`, `composePrefix`, `stripBasePrefix`, the listing
projection inside `refreshListing`, the navigation state updates, and the
upload / delete handlers.
-/

namespace OmxData

/-- Strings are modelled as lists of characters. -/
abbrev Str := List Char

/-- `value.replace(/^\/+/, '')`: drop all leading slash characters. -/
def dropLeadingSlashes (s : Str) : Str := s.dropWhile (fun c => c = '/')

/-- `value.replace(/\/+$/, '')`: drop all trailing slash characters. -/
def dropTrailingSlashes (s : Str) : Str := (s.reverse.dropWhile (fun c => c = '/')).reverse

/-- Source `ensureTrailingSlash`: falsy (empty) value gives `""`; otherwise
trim leading and trailing slashes and append a single `/` if non-empty. -/
def ensureTrailingSlash (value : Str) : Str :=
  if value = [] then []
  else
    let trimmed := dropTrailingSlashes (dropLeadingSlashes value)
    if trimmed = [] then [] else trimmed ++ ['/']

/-- `array.join('/')` on a list of segments. -/
def joinSlash : List Str → Str
  | [] => []
  | [s] => s
  | s :: rest => s ++ '/' :: joinSlash rest

/-- Source `composePrefix`: empty segment list returns the base; otherwise
append the segments, each with trailing slashes removed, `/`-joined, and a
final `/`. -/
def composePrefix (basePfx : Str) (segments : List Str) : Str :=
  if segments = [] then basePfx
  else basePfx ++ joinSlash (segments.map dropTrailingSlashes) ++ ['/']

/-- Source `stripBasePrefix`: remove the base from the front when it is
actually a leading part; otherwise return the path unchanged. -/
def stripBasePrefix (fullPath : Str) (basePfx : Str) : Str :=
  if basePfx = [] then fullPath
  else if basePfx.isPrefixOf fullPath then fullPath.drop basePfx.length
  else fullPath

/-- `s.split('/')`: chunks between slash characters (empties included). -/
def splitSl : Str → List Str
  | [] => [[]]
  | ch :: rest =>
    if ch = '/' then [] :: splitSl rest
    else
      match splitSl rest with
      | [] => [[ch]]
      | s :: ss => (ch :: s) :: ss

/-- `s.split('/').filter(Boolean)`: non-empty slash-separated chunks. -/
def nonEmptySegs (s : Str) : List Str := (splitSl s).filter (fun t => t ≠ [])

/-- A raw object record as returned by the listing backend
(`listing.files` elements). -/
structure RawFile where
  name : Str
  size : Option Nat
  updatedAt : Option Str
  contentType : Option Str
  storageClass : Option Str
deriving DecidableEq

/-- A raw listing response: folder marker strings and object records. -/
structure RawListing where
  folders : List Str
  files : List RawFile
deriving DecidableEq

/-- Source `FolderEntry` record. -/
structure FolderEntry where
  key : Str
  name : Str
  segments : List Str
  fullPrefix : Str
deriving DecidableEq

/-- Source `FileEntry` record. -/
structure FileEntry where
  key : Str
  name : Str
  objectPath : Str
  size : Option Nat
  updatedAt : Option Str
  contentType : Option Str
  storageClass : Option Str
deriving DecidableEq

/-- Folder entry construction inside `refreshListing`:
strip the base (not the effective) prefix, drop trailing slashes, split into
non-empty segments; display name is the last segment, falling back to the
cleaned string. -/
def mkFolderEntry (basePfx : Str) (entry : Str) : FolderEntry :=
  let cleaned := dropTrailingSlashes (stripBasePrefix entry basePfx)
  let segmentsFromRoot := nonEmptySegs cleaned
  { key := entry
    name := segmentsFromRoot.getLast?.getD cleaned
    segments := segmentsFromRoot
    fullPrefix := entry }

/-- File entry construction inside `refreshListing`: display name is the key
with the current effective prefix stripped (or the base prefix when the
effective prefix is empty), falling back to the full key when empty. -/
def mkFileEntry (basePfx currentPfx : Str) (file : RawFile) : FileEntry :=
  let relativePath := stripBasePrefix file.name basePfx
  let displayName :=
    if currentPfx ≠ [] then stripBasePrefix file.name currentPfx else relativePath
  { key := file.name
    name := if displayName = [] then file.name else displayName
    objectPath := file.name
    size := file.size
    updatedAt := file.updatedAt
    contentType := file.contentType
    storageClass := file.storageClass }

/-- The pure listing projection performed by `refreshListing` once the
backend response is available: `connPfx` is the raw connection prefix
(`connection.prefix`), `segments` the current navigation path. -/
def projectListing (connPfx : Str) (segments : List Str) (listing : RawListing) :
    List FolderEntry × List FileEntry :=
  let basePfx := ensureTrailingSlash connPfx
  let currentPfx := composePrefix basePfx segments
  (listing.folders.map (mkFolderEntry basePfx),
   listing.files.map (mkFileEntry basePfx currentPfx))

/-- Navigation and listing state of the page component.  `pending` holds the
unresolved listing fetches, each tagged with the id it was issued under and
the path segments captured at issue time; `nextId` is the next fresh tag.
The real component has no such tag — the tags only name the in-flight
requests so that completion order can be expressed; resolution looks a
request up by tag and applies it unconditionally, exactly as the untagged
`refreshListing` continuation does. -/
structure NavState where
  folderPath : List Str
  folders : List FolderEntry
  files : List FileEntry
  selectedFileKey : Option Str
  listingError : Option Str
  pending : List (Nat × List Str)
  nextId : Nat
deriving DecidableEq

/-- Initial state: empty path, no selection; the mount effect has already
issued the first listing fetch for the empty path (tag 0). -/
def initState : NavState :=
  { folderPath := []
    folders := []
    files := []
    selectedFileKey := none
    listingError := none
    pending := [(0, [])]
    nextId := 1 }

/-- The state updates `refreshListing` performs when its backend call
completes: on success replace folders/files and keep the selection only if
still present; on failure surface the message, empty both lists and clear
the selection. -/
def applyListing (connPfx : Str) (segments : List Str)
    (result : Except Str RawListing) (s : NavState) : NavState :=
  match result with
  | .ok listing =>
    let entries := projectListing connPfx segments listing
    { s with
      folders := entries.1
      files := entries.2
      selectedFileKey :=
        match s.selectedFileKey with
        | some k => if entries.2.any (fun f => f.key = k) then some k else none
        | none => none }
  | .error msg =>
    { s with
      listingError := some msg
      folders := []
      files := []
      selectedFileKey := none }

/-- A complete, uninterrupted `refreshListing` call: clears the listing
error on entry, then applies the backend result. -/
def refreshOutcome (connPfx : Str) (segments : List Str)
    (result : Except Str RawListing) (s : NavState) : NavState :=
  applyListing connPfx segments result { s with listingError := none }

/-- Synchronous half of triggering a listing fetch for `segments`: the
effect calls `refreshListing`, which clears the error and suspends; the
fetch joins the pending set under a fresh tag. -/
def issueFetch (segments : List Str) (s : NavState) : NavState :=
  { s with
    listingError := none
    pending := s.pending ++ [(s.nextId, segments)]
    nextId := s.nextId + 1 }

/-- User / network events of the page: clicking a folder row, clicking a
breadcrumb, clicking a file row, and a listing fetch completing. -/
inductive NavEvent where
  | enterFolder (idx : Nat)
  | breadcrumb (n : Nat)
  | select (key : Str)
  | resolve (id : Nat) (result : Except Str RawListing)

/-- One event-loop step of the component.  `enterFolder` and `breadcrumb`
mirror `handleSelectFolder` / `handleBreadcrumbClick` plus the path-change
effect that starts `refreshListing`; `resolve` applies a completed fetch
with the segments captured when it was issued — unconditionally, with no
staleness check, as in the source. -/
def step (connPfx : Str) (s : NavState) : NavEvent → NavState
  | .enterFolder idx =>
    match s.folders.get? idx with
    | none => s
    | some entry =>
      issueFetch entry.segments
        { s with folderPath := entry.segments, selectedFileKey := none }
  | .breadcrumb n =>
    issueFetch (s.folderPath.take n)
      { s with folderPath := s.folderPath.take n, selectedFileKey := none }
  | .select key => { s with selectedFileKey := some key }
  | .resolve id result =>
    match s.pending.find? (fun p => p.1 = id) with
    | none => s
    | some q =>
      applyListing connPfx q.2 result
        { s with pending := s.pending.filter (fun p => p.1 ≠ id) }

/-- Run the component from its initial state over a list of events. -/
def run (connPfx : Str) (events : List NavEvent) : NavState :=
  events.foldl (step connPfx) initState

deriving instance DecidableEq for Except

/-- The default content type `'application/octet-stream'`. -/
def octetStream : Str := String.toList "application/octet-stream"

/-- One file picked in the upload dialog, together with the outcome the
environment has in store for its two network calls: the signed-URL grant
response and whether the direct PUT succeeds.  `ftype` is `file.type`
(empty when the browser reports none). -/
structure UploadFile where
  fname : Str
  ftype : Str
  grantRes : Except Str Str
  putOk : Bool
deriving DecidableEq

/-- `file.type || 'application/octet-stream'`. -/
def contentTypeOf (f : UploadFile) : Str :=
  if f.ftype = [] then octetStream else f.ftype

/-- The error thrown for a failed PUT: `Failed to upload ${file.name}`. -/
def failMsg (fname : Str) : Str := String.toList "Failed to upload " ++ fname

/-- The error message the batch surfaces for a failing file: the grant
rejection message, or the PUT failure message. -/
def reasonOf (f : UploadFile) : Str :=
  match f.grantRes with
  | .error msg => msg
  | .ok _ => failMsg f.fname

/-- Whether both network calls for this file succeed. -/
def fileOk (f : UploadFile) : Bool :=
  (match f.grantRes with | .ok _ => true | .error _ => false) && f.putOk

/-- Network requests issued while uploading: the signed-URL grant request
(with bucket, absolute object path and declared content type) and the
direct PUT against the grant URL (with its `Content-Type` header). -/
inductive UploadAction where
  | grantRequest (bucketName : Str) (objectPath : Str) (contentType : Str)
  | putRequest (url : Str) (contentType : Str) (fname : Str)
deriving DecidableEq

/-- The requests the loop issues for one file: the grant request always,
then the PUT when the grant was issued. -/
def actionsFor (bucket currentPfx : Str) (f : UploadFile) : List UploadAction :=
  match f.grantRes with
  | .error _ => [.grantRequest bucket (currentPfx ++ f.fname) (contentTypeOf f)]
  | .ok url =>
    [.grantRequest bucket (currentPfx ++ f.fname) (contentTypeOf f),
     .putRequest url (contentTypeOf f) f.fname]

/-- The requests issued for a list of files that all succeed. -/
def allActions (bucket currentPfx : Str) : List UploadFile → List UploadAction
  | [] => []
  | f :: rest => actionsFor bucket currentPfx f ++ allActions bucket currentPfx rest

/-- Observable outcome of a batch upload: the names of the files whose
bytes reached storage, every network request issued, and the error the
`catch` block records (none when the whole batch succeeded). -/
structure BatchResult where
  uploaded : List Str
  actions : List UploadAction
  uploadError : Option Str
deriving DecidableEq

/-- The `for … of` loop of `handleFilesSelected`: strictly sequential; each
file first obtains a grant, then PUTs its bytes; the first failure throws,
so no later file is attempted. -/
def uploadLoop (bucket currentPfx : Str) : List UploadFile → BatchResult
  | [] => { uploaded := [], actions := [], uploadError := none }
  | f :: rest =>
    let objectPath := currentPfx ++ f.fname
    let ct := contentTypeOf f
    match f.grantRes with
    | .error msg =>
      { uploaded := []
        actions := [.grantRequest bucket objectPath ct]
        uploadError := some msg }
    | .ok url =>
      if f.putOk then
        let r := uploadLoop bucket currentPfx rest
        { uploaded := f.fname :: r.uploaded
          actions := .grantRequest bucket objectPath ct :: .putRequest url ct f.fname :: r.actions
          uploadError := r.uploadError }
      else
        { uploaded := []
          actions := [.grantRequest bucket objectPath ct, .putRequest url ct f.fname]
          uploadError := some (failMsg f.fname) }

/-- `handleFilesSelected`: run the sequential upload loop at the current
effective prefix; only when every file succeeded does the `try` block reach
`await refreshListing`, so on any failure the listing state is returned
untouched and only the upload error is recorded. -/
def handleFilesSelected (connPfx bucket : Str) (s : NavState)
    (fileList : List UploadFile) (refreshRes : Except Str RawListing) :
    NavState × BatchResult :=
  if fileList = [] then (s, { uploaded := [], actions := [], uploadError := none })
  else
    let basePfx := ensureTrailingSlash connPfx
    let currentPfx := composePrefix basePfx s.folderPath
    let r := uploadLoop bucket currentPfx fileList
    match r.uploadError with
    | none => (refreshOutcome connPfx s.folderPath refreshRes s, r)
    | some _ => (s, r)

/-- The backend deletion request: bucket plus object path, proxied through
the backend (`deleteStorageObject`) rather than performed against a signed
URL. -/
structure DeleteRequest where
  bucketName : Str
  objectPath : Str
deriving DecidableEq

/-- `handleDelete`: issue the backend deletion; on success refresh the
listing for the current path (the refresh call handles its own failures);
on failure record the message and leave the listing untouched.  Returns the
new state, the deletion request that was made, and whether a refresh was
triggered. -/
def handleDelete (connPfx bucket : Str) (s : NavState) (file : FileEntry)
    (delRes : Except Str Unit) (refreshRes : Except Str RawListing) :
    NavState × DeleteRequest × Bool :=
  let req : DeleteRequest := { bucketName := bucket, objectPath := file.objectPath }
  match delRes with
  | .error msg => ({ s with listingError := some msg }, req, false)
  | .ok _ => (refreshOutcome connPfx s.folderPath refreshRes s, req, true)

/-- A clean path component: non-empty and slash-free. -/
def CleanSeg (s : Str) : Prop := s ≠ [] ∧ '/' ∉ s

instance (s : Str) : Decidable (CleanSeg s) :=
  inferInstanceAs (Decidable (s ≠ [] ∧ '/' ∉ s))

/-- Modelled from the spec for comparison with the source's `composePrefix`:
the effective prefix is the base joined with the segments, "each segment
trimmed of leading/trailing `/`, joined with a single `/`, and terminated
with a trailing `/` if non-empty". -/
def specEffectivePrefix (basePfx : Str) (segments : List Str) : Str :=
  let joined := joinSlash (segments.map (fun s => dropTrailingSlashes (dropLeadingSlashes s)))
  if joined = [] then basePfx else basePfx ++ joined ++ ['/']

/-- Whether a string contains two consecutive slash characters. -/
def hasDoubleSlash : Str → Bool
  | [] => false
  | [_] => false
  | a :: b :: rest => (a = '/' && b = '/') || hasDoubleSlash (b :: rest)

/-- A navigation path derived from the raw folder strings `F` seen in
listing responses: the empty root path, or a breadcrumb-reachable front of
the segment chain of a folder entry projected from some `f ∈ F`. -/
def DerivedPath (connPfx : Str) (F : List Str) (p : List Str) : Prop :=
  p = [] ∨ ∃ f ∈ F, ∃ n, p = ((mkFolderEntry (ensureTrailingSlash connPfx) f).segments).take n

/-- Every displayed folder entry was projected from one of the raw folder
strings in `F`. -/
def FoldersFrom (connPfx : Str) (F : List Str) (folders : List FolderEntry) : Prop :=
  ∀ e ∈ folders, ∃ f ∈ F, e = mkFolderEntry (ensureTrailingSlash connPfx) f

/-- Invariant used for the path-provenance argument. -/
def NavInv (connPfx : Str) (F : List Str) (s : NavState) : Prop :=
  DerivedPath connPfx F s.folderPath ∧ FoldersFrom connPfx F s.folders

/-- The raw folder strings delivered by one event. -/
def rawFoldersOf : NavEvent → List Str
  | .resolve _ (.ok listing) => listing.folders
  | _ => []

/-- The raw folder strings delivered by a list of events. -/
def allRawFolders : List NavEvent → List Str
  | [] => []
  | e :: es => rawFoldersOf e ++ allRawFolders es

/-- Sample file entry used by concrete witnesses. -/
def sampleEntryOld : FileEntry :=
  { key := String.toList "old"
    name := String.toList "old"
    objectPath := String.toList "old"
    size := none
    updatedAt := none
    contentType := none
    storageClass := none }

/-- Sample state used by concrete witnesses: one listed file `"old"`,
selected, with the initial fetch still pending. -/
def sampleState : NavState :=
  { folderPath := []
    folders := []
    files := [sampleEntryOld]
    selectedFileKey := some (String.toList "old")
    listingError := none
    pending := [(0, [])]
    nextId := 1 }

/-- Sample listing used by concrete witnesses: a single file `"new"`. -/
def sampleListingNew : RawListing :=
  { folders := []
    files := [{ name := String.toList "new", size := none, updatedAt := none,
                contentType := none, storageClass := none }] }

/-- Root listing with two folders, used by the stale-fetch scenario. -/
def sampleL0 : RawListing :=
  { folders := [String.toList "a/", String.toList "b/"], files := [] }

/-- Listing of folder `a/` (one file `a/x`). -/
def sampleLa : RawListing :=
  { folders := []
    files := [{ name := String.toList "a/x", size := none, updatedAt := none,
                contentType := none, storageClass := none }] }

/-- Listing of folder `b/` (one file `b/y`). -/
def sampleLb : RawListing :=
  { folders := []
    files := [{ name := String.toList "b/y", size := none, updatedAt := none,
                contentType := none, storageClass := none }] }

/-- The stale-fetch event trace: the root listing resolves, the user enters
folder `a` (fetch 1) and then folder `b` (fetch 2); fetch 2 resolves first
with `b`'s listing, then the older fetch 1 resolves with `a`'s listing. -/
def staleTrace : List NavEvent :=
  [.resolve 0 (.ok sampleL0), .enterFolder 0, .enterFolder 1,
   .resolve 2 (.ok sampleLb), .resolve 1 (.ok sampleLa)]

theorem dropTrailingSlashes_append_slash (s : Str) :
    dropTrailingSlashes (s ++ ['/']) = dropTrailingSlashes s := by
  simp [dropTrailingSlashes, List.reverse_append]

theorem dropTrailingSlashes_eq_self {s : Str} (h : s.getLast? ≠ some '/') :
    dropTrailingSlashes s = s := by
  rcases s.eq_nil_or_concat with rfl | ⟨t, a, rfl⟩
  · rfl
  · have ha : a ≠ '/' := by
      simp only [List.concat_eq_append, List.getLast?_concat] at h
      exact fun hh => h (by rw [hh])
    simp [dropTrailingSlashes, List.reverse_append, List.dropWhile_cons_of_neg, ha]

theorem slashFree_getLast? {c : Str} (h : '/' ∉ c) : c.getLast? ≠ some '/' := by
  intro hc
  exact h (List.mem_of_getLast?_eq_some hc)

theorem dropTrailingSlashes_slashFree {c : Str} (h : '/' ∉ c) :
    dropTrailingSlashes c = c :=
  dropTrailingSlashes_eq_self (slashFree_getLast? h)

theorem splitSl_ne_nil (s : Str) : splitSl s ≠ [] := by
  induction s with
  | nil => simp [splitSl]
  | cons c t ih =>
    simp only [splitSl]
    split
    · simp
    · split
      · simp
      · simp

theorem splitSl_cons (ch : Char) (rest : Str) :
    splitSl (ch :: rest) =
      if ch = '/' then [] :: splitSl rest
      else
        match splitSl rest with
        | [] => [[ch]]
        | s :: ss => (ch :: s) :: ss := rfl

theorem splitSl_append_slash (a b : Str) :
    splitSl (a ++ '/' :: b) = splitSl a ++ splitSl b := by
  induction a with
  | nil =>
    rw [List.nil_append, splitSl_cons, if_pos rfl]
    rfl
  | cons c a' ih =>
    rw [List.cons_append, splitSl_cons, splitSl_cons]
    by_cases hc : c = '/'
    · rw [if_pos hc, if_pos hc, ih, List.cons_append]
    · rw [if_neg hc, if_neg hc, ih]
      obtain ⟨s, ss, hs⟩ := List.exists_cons_of_ne_nil (splitSl_ne_nil a')
      rw [hs, List.cons_append]
      rfl

theorem splitSl_slashFree {c : Str} (h : '/' ∉ c) : splitSl c = [c] := by
  induction c with
  | nil => rfl
  | cons x c' ih =>
    have hx : x ≠ '/' := fun hh => h (by rw [hh]; exact List.mem_cons_self _ _)
    have h' : '/' ∉ c' := fun hh => h (List.mem_cons_of_mem _ hh)
    simp only [splitSl, if_neg hx, ih h']

theorem nonEmptySegs_slashFree {c : Str} (hc : c ≠ []) (h : '/' ∉ c) :
    nonEmptySegs c = [c] := by
  simp [nonEmptySegs, splitSl_slashFree h, hc]

theorem nonEmptySegs_append_clean (a : Str) {c : Str} (hc : c ≠ []) (h : '/' ∉ c) :
    nonEmptySegs (a ++ '/' :: c) = nonEmptySegs a ++ [c] := by
  simp [nonEmptySegs, splitSl_append_slash, splitSl_slashFree h, hc]

theorem joinSlash_singleton (s : Str) : joinSlash [s] = s := rfl

theorem joinSlash_cons_cons (s x : Str) (xs : List Str) :
    joinSlash (s :: x :: xs) = s ++ '/' :: joinSlash (x :: xs) := rfl

theorem joinSlash_append : ∀ (a : List Str) {b : List Str}, a ≠ [] → b ≠ [] →
    joinSlash (a ++ b) = joinSlash a ++ '/' :: joinSlash b
  | [], _, ha, _ => absurd rfl ha
  | [s], b, _, hb => by
    obtain ⟨x, xs, rfl⟩ := List.exists_cons_of_ne_nil hb
    rfl
  | s :: y :: ys, b, _, hb => by
    have h2 := joinSlash_append (y :: ys) (List.cons_ne_nil y ys) hb
    obtain ⟨x, xs, rfl⟩ := List.exists_cons_of_ne_nil hb
    simp only [List.cons_append] at h2 ⊢
    rw [joinSlash_cons_cons, joinSlash_cons_cons, h2]
    simp [List.append_assoc]

theorem joinSlash_clean {segs : List Str} (hne : segs ≠ [])
    (h : ∀ s ∈ segs, CleanSeg s) :
    joinSlash segs ≠ [] ∧ (joinSlash segs).head? ≠ some '/' ∧
      (joinSlash segs).getLast? ≠ some '/' := by
  induction segs with
  | nil => exact absurd rfl hne
  | cons s r ih =>
    have hs : CleanSeg s := h s (List.mem_cons_self _ _)
    obtain ⟨c, s', rfl⟩ := List.exists_cons_of_ne_nil hs.1
    have hc : c ≠ '/' := fun hh => hs.2 (by rw [hh]; exact List.mem_cons_self _ _)
    cases r with
    | nil =>
      refine ⟨by simp [joinSlash_singleton], ?_, ?_⟩
      · rw [joinSlash_singleton, List.head?_cons]
        exact fun hh => hc (by injection hh)
      · rw [joinSlash_singleton]
        exact slashFree_getLast? hs.2
    | cons x xs =>
      have hr := ih (by simp) (fun t ht => h t (List.mem_cons_of_mem _ ht))
      refine ⟨by simp [joinSlash_cons_cons], ?_, ?_⟩
      · rw [joinSlash_cons_cons, List.cons_append, List.head?_cons]
        exact fun hh => hc (by injection hh)
      · rw [joinSlash_cons_cons, List.getLast?_append]
        obtain ⟨j, js, hj⟩ := List.exists_cons_of_ne_nil hr.1
        rw [hj, List.getLast?_cons_cons]
        have hlast := hr.2.2
        rw [hj] at hlast
        intro hcontra
        apply hlast
        rcases ho : (j :: js).getLast? with _ | a
        · exact absurd ho (by simp)
        · rw [ho, Option.or_some] at hcontra
          exact hcontra

theorem dropLeadingSlashes_eq_self {s : Str} (h : s.head? ≠ some '/') :
    dropLeadingSlashes s = s := by
  cases s with
  | nil => rfl
  | cons c t =>
    have hc : c ≠ '/' := fun hh => h (by rw [List.head?_cons, hh])
    simp [dropLeadingSlashes, List.dropWhile_cons_of_neg, hc]

theorem getLast?_append_right {a : Str} (b : Str) (h : b ≠ []) :
    (a ++ b).getLast? = b.getLast? := by
  obtain ⟨j, js, rfl⟩ := List.exists_cons_of_ne_nil h
  rw [List.getLast?_append]
  rcases ho : (j :: js).getLast? with _ | x
  · exact absurd ho (by simp)
  · rfl

theorem map_dropTrailingSlashes_clean {segs : List Str}
    (h : ∀ s ∈ segs, CleanSeg s) : segs.map dropTrailingSlashes = segs := by
  induction segs with
  | nil => rfl
  | cons s r ih =>
    have hs := h s (List.mem_cons_self _ _)
    rw [List.map_cons, dropTrailingSlashes_slashFree hs.2,
      ih (fun t ht => h t (List.mem_cons_of_mem _ ht))]

theorem ensureTrailingSlash_join {segs : List Str} (hne : segs ≠ [])
    (h : ∀ s ∈ segs, CleanSeg s) :
    ensureTrailingSlash (joinSlash segs) = joinSlash segs ++ ['/'] := by
  obtain ⟨hj, hhead, hlast⟩ := joinSlash_clean hne h
  rw [ensureTrailingSlash, if_neg hj]
  rw [dropLeadingSlashes_eq_self hhead, dropTrailingSlashes_eq_self hlast]
  simp [hj]

theorem composePrefix_nil_segs (b : Str) : composePrefix b [] = b := rfl

theorem composePrefix_ne_nil_segs (b : Str) {segs : List Str} (h : segs ≠ []) :
    composePrefix b segs = b ++ joinSlash (segs.map dropTrailingSlashes) ++ ['/'] := by
  rw [composePrefix, if_neg h]

theorem composePrefix_extends (b : Str) (segs : List Str) :
    b <+: composePrefix b segs := by
  cases hs : segs with
  | nil => exact List.prefix_rfl
  | cons x xs =>
    rw [composePrefix_ne_nil_segs b (by simp), List.append_assoc]
    exact List.prefix_append _ _

theorem composePrefix_eq_append (b : Str) (segs : List Str) :
    composePrefix b segs =
      b ++ (if segs = [] then [] else joinSlash (segs.map dropTrailingSlashes) ++ ['/']) := by
  cases hs : segs with
  | nil => simp [composePrefix_nil_segs]
  | cons x xs => rw [composePrefix_ne_nil_segs b (by simp), if_neg (by simp), List.append_assoc]

theorem stripBasePrefix_nil_base (s : Str) : stripBasePrefix s [] = s := rfl

theorem stripBasePrefix_append (b t : Str) : stripBasePrefix (b ++ t) b = t := by
  cases hb : b with
  | nil => rw [stripBasePrefix_nil_base, List.nil_append]
  | cons c b' =>
    rw [stripBasePrefix]
    rw [if_neg (by simp)]
    rw [if_pos (List.isPrefixOf_iff_prefix.mpr (List.prefix_append _ _))]
    exact List.drop_left _ _

theorem folderName_of_shape (bp rest : Str) {c : Str}
    (hshape : rest = [] ∨ ∃ j, rest = j ++ ['/'])
    (hc : c ≠ []) (hsf : '/' ∉ c) :
    (mkFolderEntry bp (bp ++ (rest ++ (c ++ ['/'])))).name = c := by
  show (nonEmptySegs (dropTrailingSlashes
      (stripBasePrefix (bp ++ (rest ++ (c ++ ['/']))) bp))).getLast?.getD
      (dropTrailingSlashes (stripBasePrefix (bp ++ (rest ++ (c ++ ['/']))) bp)) = c
  rw [stripBasePrefix_append]
  have hclean : dropTrailingSlashes (rest ++ (c ++ ['/'])) = rest ++ c := by
    rw [show rest ++ (c ++ ['/']) = (rest ++ c) ++ ['/'] from by rw [List.append_assoc],
      dropTrailingSlashes_append_slash]
    apply dropTrailingSlashes_eq_self
    rw [getLast?_append_right c hc]
    exact slashFree_getLast? hsf
  rw [hclean]
  rcases hshape with rfl | ⟨j, rfl⟩
  · rw [List.nil_append, nonEmptySegs_slashFree hc hsf]
    rfl
  · rw [List.append_assoc, show ['/'] ++ c = '/' :: c from rfl,
      nonEmptySegs_append_clean j hc hsf, List.getLast?_concat]
    rfl

theorem folderName_of_child (bp : Str) (segs : List Str) {c : Str}
    (hc : c ≠ []) (hsf : '/' ∉ c) :
    (mkFolderEntry bp (composePrefix bp segs ++ (c ++ ['/']))).name = c := by
  rw [composePrefix_eq_append, List.append_assoc]
  apply folderName_of_shape bp _ _ hc hsf
  cases hs : segs with
  | nil => left; rw [if_pos rfl]
  | cons x xs => right; exact ⟨_, by rw [if_neg (List.cons_ne_nil x xs)]⟩

theorem fileName_of_properExt (bp : Str) (segs : List Str) (f : RawFile)
    (hpre : (composePrefix bp segs) <+: f.name)
    (hne : f.name ≠ composePrefix bp segs) :
    composePrefix bp segs ++ (mkFileEntry bp (composePrefix bp segs) f).name = f.name := by
  by_cases hcp : composePrefix bp segs = []
  · rw [hcp, List.nil_append]
    have hbp : bp = [] := by
      cases hs : segs with
      | nil => rw [hs, composePrefix_nil_segs] at hcp; exact hcp
      | cons x xs =>
        rw [hs, composePrefix_ne_nil_segs bp (List.cons_ne_nil x xs)] at hcp
        exact absurd hcp (by simp)
    rw [mkFileEntry]
    simp only [hcp, hbp, ne_eq, not_true_eq_false, if_false, stripBasePrefix_nil_base]
    split <;> rfl
  · obtain ⟨t, ht⟩ := hpre
    have htne : t ≠ [] := by
      intro hh
      rw [hh, List.append_nil] at ht
      exact hne ht.symm
    rw [mkFileEntry]
    simp only [ne_eq, hcp, not_false_eq_true, if_true, if_pos]
    rw [← ht, stripBasePrefix_append]
    rw [if_neg htne]

theorem composePrefix_eq_spec (b : Str) {segs : List Str}
    (h : ∀ s ∈ segs, CleanSeg s) :
    composePrefix b segs = specEffectivePrefix b segs := by
  have hmap : segs.map (fun s => dropTrailingSlashes (dropLeadingSlashes s)) = segs := by
    induction segs with
    | nil => rfl
    | cons s r ih =>
      have hs := h s (List.mem_cons_self _ _)
      obtain ⟨c, s', rfl⟩ := List.exists_cons_of_ne_nil hs.1
      have hhead : (c :: s').head? ≠ some '/' := by
        rw [List.head?_cons]
        exact fun hh => hs.2 (by rw [show c = '/' from by injection hh]; exact List.mem_cons_self _ _)
      rw [List.map_cons, dropLeadingSlashes_eq_self hhead, dropTrailingSlashes_slashFree hs.2,
        ih (fun t ht => h t (List.mem_cons_of_mem _ ht))]
  cases hs : segs with
  | nil => rw [composePrefix_nil_segs, specEffectivePrefix]; rfl
  | cons x xs =>
    rw [specEffectivePrefix]
    subst hs
    rw [hmap, composePrefix_ne_nil_segs b (List.cons_ne_nil x xs),
      map_dropTrailingSlashes_clean h]
    rw [if_neg (joinSlash_clean (List.cons_ne_nil x xs) h).1]

end OmxData

namespace OmxData

/-- Claim C2, counterexample.  The claim fails on the code in two places:
(1) `composePrefix` does not trim leading slashes of a segment, so for base
`""` and segments `["/a"]` the effective prefix is `"/a/"`, not the
spec-computed `"a/"`; (2) a `FolderEntry` built from the listing has a full
key ending in `"/"` while `effectivePrefix ++ displayName` does not, so
`effectivePrefix + entry.displayName == entry.fullKey` fails even for an
immediate child folder (`"proj/" ++ "a" = "proj/a" ≠ "proj/a/"`). -/
theorem claim_C2_counterexample :
    (composePrefix (ensureTrailingSlash (String.toList "proj")) []).isPrefixOf
        (mkFolderEntry (ensureTrailingSlash (String.toList "proj"))
          (String.toList "proj/a/")).fullPrefix = true ∧
    composePrefix (ensureTrailingSlash (String.toList "proj")) [] ++
        (mkFolderEntry (ensureTrailingSlash (String.toList "proj"))
          (String.toList "proj/a/")).name ≠
      (mkFolderEntry (ensureTrailingSlash (String.toList "proj"))
        (String.toList "proj/a/")).fullPrefix ∧
    composePrefix [] [String.toList "/a"] ≠ specEffectivePrefix [] [String.toList "/a"] := by
  decide

/-- Claim C2, amended.  With each navigation segment non-empty and
slash-free (which holds for all segments the component ever navigates to,
since they come from `split('/').filter(Boolean)`), the code's effective
prefix agrees with the spec formula; `effectivePrefix ++ displayName`
recovers the full key for every file whose key properly extends the
effective prefix; and for an immediate child folder
`effectivePrefix ++ c ++ "/"` the display name is exactly `c`, so the full
key is recovered only after re-appending the trailing slash. -/
theorem claim_C2_amended (bp : Str) (segs : List Str) (f : RawFile) (c : Str)
    (hsegs : ∀ s ∈ segs, CleanSeg s)
    (hpre : composePrefix bp segs <+: f.name)
    (hne : f.name ≠ composePrefix bp segs)
    (hc : c ≠ []) (hsf : '/' ∉ c) :
    composePrefix bp segs = specEffectivePrefix bp segs ∧
    composePrefix bp segs ++ (mkFileEntry bp (composePrefix bp segs) f).name = f.name ∧
    composePrefix bp segs ++
        ((mkFolderEntry bp (composePrefix bp segs ++ (c ++ ['/']))).name ++ ['/']) =
      composePrefix bp segs ++ (c ++ ['/']) := by
  refine ⟨composePrefix_eq_spec bp hsegs, fileName_of_properExt bp segs f hpre hne, ?_⟩
  rw [folderName_of_child bp segs hc hsf]

/-- Claim C2, witness: the spec's own example — base prefix `"proj"`,
current segments `["raw"]`, file `"proj/raw/notes.txt"`, child folder
component `"sample1"`. -/
theorem claim_C2_witness :
    composePrefix (ensureTrailingSlash (String.toList "proj")) [String.toList "raw"] =
      specEffectivePrefix (ensureTrailingSlash (String.toList "proj")) [String.toList "raw"] ∧
    composePrefix (ensureTrailingSlash (String.toList "proj")) [String.toList "raw"] ++
        (mkFileEntry (ensureTrailingSlash (String.toList "proj"))
          (composePrefix (ensureTrailingSlash (String.toList "proj")) [String.toList "raw"])
          ⟨String.toList "proj/raw/notes.txt", some 120, none, none, none⟩).name =
      String.toList "proj/raw/notes.txt" ∧
    composePrefix (ensureTrailingSlash (String.toList "proj")) [String.toList "raw"] ++
        ((mkFolderEntry (ensureTrailingSlash (String.toList "proj"))
          (composePrefix (ensureTrailingSlash (String.toList "proj")) [String.toList "raw"] ++
            (String.toList "sample1" ++ ['/']))).name ++ ['/']) =
      composePrefix (ensureTrailingSlash (String.toList "proj")) [String.toList "raw"] ++
        (String.toList "sample1" ++ ['/']) :=
  claim_C2_amended (ensureTrailingSlash (String.toList "proj")) [String.toList "raw"]
    ⟨String.toList "proj/raw/notes.txt", some 120, none, none, none⟩
    (String.toList "sample1")
    (by decide) (by decide) (by decide) (by decide) (by decide)

/-- Claim C3: after any completed listing refresh (a resolve event that
matches a pending fetch), the selected file key is `none` or the key of a
file in the new listing; a selection absent from the refreshed files list
is cleared; and the selection is never rewritten to a different key by a
refresh (it is kept or cleared). -/
theorem claim_C3 (connPfx : Str) (s : NavState) (id : Nat)
    (res : Except Str RawListing) (q : Nat × List Str)
    (hq : s.pending.find? (fun p => p.1 = id) = some q) :
    ((step connPfx s (.resolve id res)).selectedFileKey = none ∨
      ∃ f ∈ (step connPfx s (.resolve id res)).files,
        (step connPfx s (.resolve id res)).selectedFileKey = some f.key) ∧
    (∀ k, s.selectedFileKey = some k →
      (∀ f ∈ (step connPfx s (.resolve id res)).files, f.key ≠ k) →
      (step connPfx s (.resolve id res)).selectedFileKey = none) ∧
    ((step connPfx s (.resolve id res)).selectedFileKey = none ∨
      (step connPfx s (.resolve id res)).selectedFileKey = s.selectedFileKey) := by
  simp only [step, hq]
  cases res with
  | error msg => simp [applyListing]
  | ok listing =>
    simp only [applyListing]
    cases hsel : s.selectedFileKey with
    | none => simp
    | some k =>
      cases hany : (projectListing connPfx q.2 listing).2.any (fun f => f.key = k) with
      | false => simp [hany]
      | true =>
        obtain ⟨f, hf, hfk⟩ := List.any_eq_true.mp hany
        have hkey : f.key = k := of_decide_eq_true hfk
        refine ⟨Or.inr ⟨f, hf, by simp [hany, hkey]⟩, ?_, Or.inr (by simp [hany])⟩
        intro k' hk' habs
        exfalso
        injection hk' with hk'
        subst hk'
        exact absurd hkey (habs f hf)

/-- Claim C3, witness: a refresh whose listing no longer contains the
previously selected key `"old"` satisfies the invariant (here the selection
is cleared). -/
theorem claim_C3_witness :
    ((step [] sampleState (.resolve 0 (.ok sampleListingNew))).selectedFileKey = none ∨
      ∃ f ∈ (step [] sampleState (.resolve 0 (.ok sampleListingNew))).files,
        (step [] sampleState (.resolve 0 (.ok sampleListingNew))).selectedFileKey = some f.key) ∧
    (∀ k, sampleState.selectedFileKey = some k →
      (∀ f ∈ (step [] sampleState (.resolve 0 (.ok sampleListingNew))).files, f.key ≠ k) →
      (step [] sampleState (.resolve 0 (.ok sampleListingNew))).selectedFileKey = none) ∧
    ((step [] sampleState (.resolve 0 (.ok sampleListingNew))).selectedFileKey = none ∨
      (step [] sampleState (.resolve 0 (.ok sampleListingNew))).selectedFileKey =
        sampleState.selectedFileKey) :=
  claim_C3 [] sampleState 0 (.ok sampleListingNew) (0, []) (by decide)

/-- Claim C6: a listing fetch that resolves with an error leaves empty
folders and files, a cleared selection, the failure message surfaced as the
listing error, and no new fetch enqueued (the pending set only shrinks and
the id counter is untouched) — no automatic retry. -/
theorem claim_C6 (connPfx : Str) (s : NavState) (id : Nat) (msg : Str)
    (q : Nat × List Str)
    (hq : s.pending.find? (fun p => p.1 = id) = some q) :
    (step connPfx s (.resolve id (.error msg))).folders = [] ∧
    (step connPfx s (.resolve id (.error msg))).files = [] ∧
    (step connPfx s (.resolve id (.error msg))).selectedFileKey = none ∧
    (step connPfx s (.resolve id (.error msg))).listingError = some msg ∧
    (step connPfx s (.resolve id (.error msg))).pending =
      s.pending.filter (fun p => p.1 ≠ id) ∧
    (step connPfx s (.resolve id (.error msg))).nextId = s.nextId := by
  simp [step, hq, applyListing]

/-- Claim C6, witness: a failing refresh over a non-empty selected state. -/
theorem claim_C6_witness :
    (step [] sampleState (.resolve 0 (.error (String.toList "boom")))).folders = [] ∧
    (step [] sampleState (.resolve 0 (.error (String.toList "boom")))).files = [] ∧
    (step [] sampleState (.resolve 0 (.error (String.toList "boom")))).selectedFileKey = none ∧
    (step [] sampleState (.resolve 0 (.error (String.toList "boom")))).listingError =
      some (String.toList "boom") ∧
    (step [] sampleState (.resolve 0 (.error (String.toList "boom")))).pending =
      sampleState.pending.filter (fun p => p.1 ≠ 0) ∧
    (step [] sampleState (.resolve 0 (.error (String.toList "boom")))).nextId =
      sampleState.nextId :=
  claim_C6 [] sampleState 0 (String.toList "boom") (0, []) (by decide)

/-- Claim C8: the hierarchy projection is a pure function of the base
prefix, the segments and the raw listing; the `i`-th output folder/file is
the projection of the `i`-th raw input (order preserved, lengths equal, no
reordering, dropping or duplication); and applying the same successful
refresh twice to a state equals applying it once (no accumulation across
calls). -/
theorem claim_C8 (connPfx : Str) (segs : List Str) (L : RawListing) (i : Nat)
    (s : NavState) :
    ((projectListing connPfx segs L).1.get? i =
        (L.folders.get? i).map (mkFolderEntry (ensureTrailingSlash connPfx)) ∧
      (projectListing connPfx segs L).2.get? i =
        (L.files.get? i).map (mkFileEntry (ensureTrailingSlash connPfx)
          (composePrefix (ensureTrailingSlash connPfx) segs))) ∧
    ((projectListing connPfx segs L).1.length = L.folders.length ∧
      (projectListing connPfx segs L).2.length = L.files.length) ∧
    refreshOutcome connPfx segs (.ok L) (refreshOutcome connPfx segs (.ok L) s) =
      refreshOutcome connPfx segs (.ok L) s := by
  refine ⟨⟨List.get?_map _ _ _, List.get?_map _ _ _⟩,
    ⟨List.length_map _ _, List.length_map _ _⟩, ?_⟩
  cases s with
  | mk fp fo fi sel err pen nid =>
    simp only [refreshOutcome, applyListing]
    cases sel with
    | none => rfl
    | some k =>
      cases hany : (projectListing connPfx segs L).2.any (fun f => f.key = k) with
      | false => simp [hany]
      | true => simp [hany]

/-- Claim C9: deletion goes through the backend as a (bucket, object path)
request — not a signed URL; a failed deletion leaves folders, files and
selection exactly as they were, records only the error, and triggers no
refresh; a successful deletion triggers a listing refresh for the current
path, whose outcome is exactly a fresh refresh of the current state. -/
theorem claim_C9 (connPfx bucket : Str) (s : NavState) (file : FileEntry)
    (msg : Str) (refreshRes : Except Str RawListing) :
    ((handleDelete connPfx bucket s file (.error msg) refreshRes).1.folders = s.folders ∧
      (handleDelete connPfx bucket s file (.error msg) refreshRes).1.files = s.files ∧
      (handleDelete connPfx bucket s file (.error msg) refreshRes).1.selectedFileKey =
        s.selectedFileKey ∧
      (handleDelete connPfx bucket s file (.error msg) refreshRes).1.listingError = some msg ∧
      (handleDelete connPfx bucket s file (.error msg) refreshRes).2.2 = false) ∧
    ((handleDelete connPfx bucket s file (.ok ()) refreshRes).1 =
        refreshOutcome connPfx s.folderPath refreshRes s ∧
      (handleDelete connPfx bucket s file (.ok ()) refreshRes).2.2 = true) ∧
    ((handleDelete connPfx bucket s file (.error msg) refreshRes).2.1 =
        { bucketName := bucket, objectPath := file.objectPath } ∧
      (handleDelete connPfx bucket s file (.ok ()) refreshRes).2.1 =
        { bucketName := bucket, objectPath := file.objectPath }) := by
  simp [handleDelete]

/-- Claim C10: when any file of a non-empty batch fails, the post-batch
refresh is skipped entirely — the returned navigation state is exactly the
pre-upload state (folders, files, selection and listing error untouched),
while the batch result still records the partial uploads and the error. -/
theorem claim_C10 (connPfx bucket : Str) (s : NavState) (fs : List UploadFile)
    (refreshRes : Except Str RawListing) (msg : Str)
    (herr : (uploadLoop bucket
      (composePrefix (ensureTrailingSlash connPfx) s.folderPath) fs).uploadError =
      some msg) :
    (handleFilesSelected connPfx bucket s fs refreshRes).1 = s ∧
    (handleFilesSelected connPfx bucket s fs refreshRes).2 =
      uploadLoop bucket (composePrefix (ensureTrailingSlash connPfx) s.folderPath) fs := by
  by_cases hfs : fs = []
  · subst hfs
    simp [uploadLoop] at herr
  · simp [handleFilesSelected, if_neg hfs, herr]

/-- Claim C10, witness: a single file whose grant request is denied leaves
the state untouched. -/
theorem claim_C10_witness :
    (handleFilesSelected [] (String.toList "bkt") sampleState
      [⟨String.toList "f.txt", [], .error (String.toList "denied"), false⟩]
      (.ok sampleListingNew)).1 = sampleState ∧
    (handleFilesSelected [] (String.toList "bkt") sampleState
      [⟨String.toList "f.txt", [], .error (String.toList "denied"), false⟩]
      (.ok sampleListingNew)).2 =
      uploadLoop (String.toList "bkt")
        (composePrefix (ensureTrailingSlash []) sampleState.folderPath)
        [⟨String.toList "f.txt", [], .error (String.toList "denied"), false⟩] :=
  claim_C10 [] (String.toList "bkt") sampleState
    [⟨String.toList "f.txt", [], .error (String.toList "denied"), false⟩]
    (.ok sampleListingNew) (String.toList "denied") (by decide)

theorem fileOk_shape {f : UploadFile} (h : fileOk f = true) :
    ∃ url, f.grantRes = .ok url ∧ f.putOk = true := by
  unfold fileOk at h
  cases hg : f.grantRes with
  | error m => rw [hg] at h; simp at h
  | ok url =>
    rw [hg] at h
    simp only [Bool.true_and] at h
    exact ⟨url, rfl, h⟩

theorem uploadLoop_all_ok (bucket cp : Str) :
    ∀ (fs : List UploadFile), (∀ g ∈ fs, fileOk g = true) →
      uploadLoop bucket cp fs =
        { uploaded := fs.map (fun g => g.fname)
          actions := allActions bucket cp fs
          uploadError := none }
  | [], _ => rfl
  | g :: rest, h => by
    obtain ⟨url, hg, hput⟩ := fileOk_shape (h g (List.mem_cons_self _ _))
    have ih := uploadLoop_all_ok bucket cp rest (fun t ht => h t (List.mem_cons_of_mem _ ht))
    simp [uploadLoop, hg, hput, ih, allActions, actionsFor]

theorem uploadLoop_first_fail (bucket cp : Str) :
    ∀ (pre : List UploadFile) (f : UploadFile) (rest : List UploadFile),
      (∀ g ∈ pre, fileOk g = true) → fileOk f = false →
      uploadLoop bucket cp (pre ++ f :: rest) =
        { uploaded := pre.map (fun g => g.fname)
          actions := allActions bucket cp pre ++ actionsFor bucket cp f
          uploadError := some (reasonOf f) }
  | [], f, rest, _, hf => by
    rw [List.nil_append]
    cases hg : f.grantRes with
    | error m => simp [uploadLoop, hg, actionsFor, reasonOf, allActions]
    | ok url =>
      have hput : f.putOk = false := by
        unfold fileOk at hf
        rw [hg] at hf
        simpa using hf
      simp [uploadLoop, hg, hput, actionsFor, reasonOf, allActions]
  | g :: pre', f, rest, h, hf => by
    obtain ⟨url, hg, hput⟩ := fileOk_shape (h g (List.mem_cons_self _ _))
    have ih := uploadLoop_first_fail bucket cp pre' f rest
      (fun t ht => h t (List.mem_cons_of_mem _ ht)) hf
    simp [uploadLoop, hg, hput, ih, allActions, actionsFor]

/-- Claim C4: the batch upload is strictly sequential with exact
partial-success attribution.  If every file before `f` succeeds and `f`
fails, the outcome is: exactly the files before `f` uploaded (in order),
the network actions of those files followed by `f`'s attempted actions,
the error being `f`'s reason (its grant rejection, or
`"Failed to upload " ++ name` for a PUT failure), and nothing at all for
the files after `f`.  If every file succeeds, all are uploaded in order
with no error. -/
theorem claim_C4 (bucket cp : Str) :
    (∀ (pre : List UploadFile) (f : UploadFile) (rest : List UploadFile),
      (∀ g ∈ pre, fileOk g = true) → fileOk f = false →
      uploadLoop bucket cp (pre ++ f :: rest) =
        { uploaded := pre.map (fun g => g.fname)
          actions := allActions bucket cp pre ++ actionsFor bucket cp f
          uploadError := some (reasonOf f) }) ∧
    (∀ fs : List UploadFile, (∀ g ∈ fs, fileOk g = true) →
      uploadLoop bucket cp fs =
        { uploaded := fs.map (fun g => g.fname)
          actions := allActions bucket cp fs
          uploadError := none }) :=
  ⟨uploadLoop_first_fail bucket cp, uploadLoop_all_ok bucket cp⟩

/-- Claim C4, witness: three files where the second one's PUT fails —
file 1 is uploaded, file 2 is reported failed with its reason, file 3 is
never attempted. -/
theorem claim_C4_witness :
    uploadLoop (String.toList "bkt") (String.toList "proj/")
      ([⟨String.toList "a.txt", [], .ok (String.toList "u1"), true⟩] ++
        ⟨String.toList "b.txt", [], .ok (String.toList "u2"), false⟩ ::
        [⟨String.toList "c.txt", [], .ok (String.toList "u3"), true⟩]) =
      { uploaded := ([⟨String.toList "a.txt", [], .ok (String.toList "u1"), true⟩] :
            List UploadFile).map (fun g => g.fname)
        actions := allActions (String.toList "bkt") (String.toList "proj/")
            [⟨String.toList "a.txt", [], .ok (String.toList "u1"), true⟩] ++
          actionsFor (String.toList "bkt") (String.toList "proj/")
            ⟨String.toList "b.txt", [], .ok (String.toList "u2"), false⟩
        uploadError := some (reasonOf
          ⟨String.toList "b.txt", [], .ok (String.toList "u2"), false⟩) } :=
  (claim_C4 (String.toList "bkt") (String.toList "proj/")).1
    [⟨String.toList "a.txt", [], .ok (String.toList "u1"), true⟩]
    ⟨String.toList "b.txt", [], .ok (String.toList "u2"), false⟩
    [⟨String.toList "c.txt", [], .ok (String.toList "u3"), true⟩]
    (by decide) (by decide)

theorem hds_slashFree {s : Str} (h : '/' ∉ s) : hasDoubleSlash s = false := by
  induction s with
  | nil => rfl
  | cons a t ih =>
    have ha : a ≠ '/' := fun hh => h (by rw [hh]; exact List.mem_cons_self _ _)
    have ht : '/' ∉ t := fun hh => h (List.mem_cons_of_mem _ hh)
    cases t with
    | nil => rfl
    | cons b r => simp [hasDoubleSlash, ha, ih ht]

theorem hds_prepend {c : Str} (r : Str) (hc : '/' ∉ c)
    (hr : hasDoubleSlash r = false) : hasDoubleSlash (c ++ r) = false := by
  induction c with
  | nil => simpa using hr
  | cons a c' ih =>
    have ha : a ≠ '/' := fun hh => hc (by rw [hh]; exact List.mem_cons_self _ _)
    have hc' : '/' ∉ c' := fun hh => hc (List.mem_cons_of_mem _ hh)
    have ih' := ih hc'
    rw [List.cons_append]
    cases hcr : c' ++ r with
    | nil => rfl
    | cons b t =>
      rw [hcr] at ih'
      simp [hasDoubleSlash, ha, ih']

theorem hds_slash_cons (r : Str) (hh : r.head? ≠ some '/')
    (hr : hasDoubleSlash r = false) : hasDoubleSlash ('/' :: r) = false := by
  cases r with
  | nil => rfl
  | cons b t =>
    have hb : b ≠ '/' := fun h2 => hh (by rw [List.head?_cons, h2])
    simp [hasDoubleSlash, hb, hr]

theorem hds_join {comps : List Str} (h : ∀ s ∈ comps, CleanSeg s) :
    hasDoubleSlash (joinSlash comps) = false := by
  induction comps with
  | nil => rfl
  | cons c rest ih =>
    have hcc := h c (List.mem_cons_self _ _)
    have hrest := fun t ht => h t (List.mem_cons_of_mem c ht)
    cases rest with
    | nil => exact hds_slashFree hcc.2
    | cons x xs =>
      rw [joinSlash_cons_cons]
      apply hds_prepend _ hcc.2
      exact hds_slash_cons _ (joinSlash_clean (List.cons_ne_nil x xs) hrest).2.1 (ih hrest)

theorem composePrefix_join_append (bsegs path : List Str) (c : Str)
    (hp : ∀ s ∈ path, CleanSeg s) (hb : ∀ s ∈ bsegs, CleanSeg s) :
    composePrefix (ensureTrailingSlash (joinSlash bsegs)) path ++ c =
      joinSlash (bsegs ++ path ++ [c]) := by
  cases bsegs with
  | nil =>
    cases path with
    | nil => rfl
    | cons x xs =>
      rw [show ensureTrailingSlash (joinSlash []) = ([] : Str) from rfl,
        composePrefix_ne_nil_segs [] (List.cons_ne_nil x xs),
        map_dropTrailingSlashes_clean hp, List.nil_append, List.nil_append,
        joinSlash_append _ (List.cons_ne_nil x xs) (List.cons_ne_nil c []),
        joinSlash_singleton, List.append_assoc]
      rfl
  | cons b bs =>
    have hens : ensureTrailingSlash (joinSlash (b :: bs)) = joinSlash (b :: bs) ++ ['/'] :=
      ensureTrailingSlash_join (List.cons_ne_nil b bs) hb
    cases path with
    | nil =>
      rw [composePrefix_nil_segs, hens, List.append_nil,
        joinSlash_append _ (List.cons_ne_nil b bs) (List.cons_ne_nil c []),
        joinSlash_singleton, List.append_assoc]
      rfl
    | cons x xs =>
      rw [composePrefix_ne_nil_segs _ (List.cons_ne_nil x xs),
        map_dropTrailingSlashes_clean hp, hens,
        joinSlash_append _ (List.append_ne_nil_of_left_ne_nil (List.cons_ne_nil b bs) _)
          (List.cons_ne_nil c []),
        joinSlash_append _ (List.cons_ne_nil b bs) (List.cons_ne_nil x xs),
        joinSlash_singleton]
      simp [List.append_assoc]

/-- Claim C7: every signed-URL grant request issued by the upload loop
carries the configured bucket and the absolute object key equal to the
`/`-join of root-prefix segments, current path segments and the file name
(hence with no double slash), with the declared content type being
`file.type` or `application/octet-stream` when absent; and every direct
PUT uses exactly the content type that its file declared in the grant
request. -/
theorem claim_C7 (bucket : Str) (bsegs path : List Str) (fs : List UploadFile)
    (hb : ∀ s ∈ bsegs, CleanSeg s) (hp : ∀ s ∈ path, CleanSeg s)
    (hf : ∀ f ∈ fs, CleanSeg f.fname) :
    ∀ a ∈ (uploadLoop bucket
        (composePrefix (ensureTrailingSlash (joinSlash bsegs)) path) fs).actions,
      (∀ bk op ct, a = .grantRequest bk op ct →
        bk = bucket ∧ ∃ f ∈ fs, op = joinSlash (bsegs ++ path ++ [f.fname]) ∧
          hasDoubleSlash op = false ∧ ct = contentTypeOf f) ∧
      (∀ url ct n, a = .putRequest url ct n →
        ∃ f ∈ fs, n = f.fname ∧ ct = contentTypeOf f) := by
  induction fs with
  | nil => intro a ha; simp [uploadLoop] at ha
  | cons f rest ih =>
    have hfc : CleanSeg f.fname := hf f (List.mem_cons_self _ _)
    have hkey : composePrefix (ensureTrailingSlash (joinSlash bsegs)) path ++ f.fname =
        joinSlash (bsegs ++ path ++ [f.fname]) :=
      composePrefix_join_append bsegs path f.fname hp hb
    have hclean : ∀ s ∈ bsegs ++ path ++ [f.fname], CleanSeg s := by
      intro s hs
      rcases List.mem_append.mp hs with hs | hs
      · rcases List.mem_append.mp hs with hs | hs
        · exact hb s hs
        · exact hp s hs
      · rw [List.mem_singleton.mp hs]; exact hfc
    have hds : hasDoubleSlash (joinSlash (bsegs ++ path ++ [f.fname])) = false :=
      hds_join hclean
    have hgrant : ∀ a bk op ct,
        a = UploadAction.grantRequest bk op ct →
        a = UploadAction.grantRequest bucket
          (composePrefix (ensureTrailingSlash (joinSlash bsegs)) path ++ f.fname)
          (contentTypeOf f) →
        bk = bucket ∧ ∃ g ∈ f :: rest, op = joinSlash (bsegs ++ path ++ [g.fname]) ∧
          hasDoubleSlash op = false ∧ ct = contentTypeOf g := by
      intro a bk op ct h1 h2
      rw [h2] at h1
      injection h1 with e1 e2 e3
      exact ⟨e1.symm, f, List.mem_cons_self _ _,
        by rw [← e2, hkey], by rw [← e2, hkey]; exact hds, e3.symm⟩
    have hweak : ∀ a,
        ((∀ bk op ct, a = UploadAction.grantRequest bk op ct →
          bk = bucket ∧ ∃ g ∈ rest, op = joinSlash (bsegs ++ path ++ [g.fname]) ∧
            hasDoubleSlash op = false ∧ ct = contentTypeOf g) ∧
         (∀ url ct n, a = UploadAction.putRequest url ct n →
          ∃ g ∈ rest, n = g.fname ∧ ct = contentTypeOf g)) →
        ((∀ bk op ct, a = UploadAction.grantRequest bk op ct →
          bk = bucket ∧ ∃ g ∈ f :: rest, op = joinSlash (bsegs ++ path ++ [g.fname]) ∧
            hasDoubleSlash op = false ∧ ct = contentTypeOf g) ∧
         (∀ url ct n, a = UploadAction.putRequest url ct n →
          ∃ g ∈ f :: rest, n = g.fname ∧ ct = contentTypeOf g)) := by
      intro a ⟨h1, h2⟩
      constructor
      · intro bk op ct he
        obtain ⟨hbk, g, hg, hrest⟩ := h1 bk op ct he
        exact ⟨hbk, g, List.mem_cons_of_mem _ hg, hrest⟩
      · intro url ct n he
        obtain ⟨g, hg, hrest⟩ := h2 url ct n he
        exact ⟨g, List.mem_cons_of_mem _ hg, hrest⟩
    intro a ha
    have ihw := fun (ha' : a ∈ (uploadLoop bucket
        (composePrefix (ensureTrailingSlash (joinSlash bsegs)) path) rest).actions) =>
      hweak a (ih (fun g hg => hf g (List.mem_cons_of_mem _ hg)) a ha')
    cases hg : f.grantRes with
    | error m =>
      rw [uploadLoop, hg] at ha
      simp only [List.mem_singleton] at ha
      subst ha
      refine ⟨fun bk op ct h1 => hgrant _ bk op ct h1 rfl, ?_⟩
      intro url ct n he
      exact absurd he (by simp)
    | ok u =>
      cases hput : f.putOk with
      | true =>
        simp only [uploadLoop, hg, hput, if_true, List.mem_cons] at ha
        rcases ha with rfl | rfl | ha
        · refine ⟨fun bk op ct h1 => hgrant _ bk op ct h1 rfl, ?_⟩
          intro url ct n he
          exact absurd he (by simp)
        · refine ⟨?_, ?_⟩
          · intro bk op ct he
            exact absurd he (by simp)
          · intro url ct n he
            injection he with e1 e2 e3
            exact ⟨f, List.mem_cons_self _ _, e3.symm, e2.symm⟩
        · exact ihw ha
      | false =>
        simp only [uploadLoop, hg, hput, Bool.false_eq_true, if_false, List.mem_cons,
          List.not_mem_nil, or_false] at ha
        rcases ha with rfl | rfl
        · refine ⟨fun bk op ct h1 => hgrant _ bk op ct h1 rfl, ?_⟩
          intro url ct n he
          exact absurd he (by simp)
        · refine ⟨?_, ?_⟩
          · intro bk op ct he
            exact absurd he (by simp)
          · intro url ct n he
            injection he with e1 e2 e3
            exact ⟨f, List.mem_cons_self _ _, e3.symm, e2.symm⟩

/-- Claim C7, witness: base prefix segments `["base"]`, path `["raw"]`,
one file `"n.txt"` of type `"text/plain"` — the grant request carries the
key `"base/raw/n.txt"` (no double slash) and the declared content type. -/
theorem claim_C7_witness :
    String.toList "bkt" = String.toList "bkt" ∧
    ∃ f ∈ ([⟨String.toList "n.txt", String.toList "text/plain",
        .ok (String.toList "u"), true⟩] : List UploadFile),
      String.toList "base/raw/n.txt" =
        joinSlash ([String.toList "base"] ++ [String.toList "raw"] ++ [f.fname]) ∧
      hasDoubleSlash (String.toList "base/raw/n.txt") = false ∧
      String.toList "text/plain" = contentTypeOf f :=
  (claim_C7 (String.toList "bkt") [String.toList "base"] [String.toList "raw"]
    [⟨String.toList "n.txt", String.toList "text/plain", .ok (String.toList "u"), true⟩]
    (by decide) (by decide) (by decide)
    (.grantRequest (String.toList "bkt") (String.toList "base/raw/n.txt")
      (String.toList "text/plain"))
    (by decide)).1
    (String.toList "bkt") (String.toList "base/raw/n.txt") (String.toList "text/plain") rfl

theorem derivedPath_mono {cp : Str} {F G : List Str} {p : List Str}
    (hFG : ∀ f ∈ F, f ∈ G) (h : DerivedPath cp F p) : DerivedPath cp G p := by
  rcases h with rfl | ⟨f, hf, n, hp⟩
  · exact Or.inl rfl
  · exact Or.inr ⟨f, hFG f hf, n, hp⟩

theorem foldersFrom_mono {cp : Str} {F G : List Str} {fo : List FolderEntry}
    (hFG : ∀ f ∈ F, f ∈ G) (h : FoldersFrom cp F fo) : FoldersFrom cp G fo := by
  intro e he
  obtain ⟨f, hf, hef⟩ := h e he
  exact ⟨f, hFG f hf, hef⟩

theorem navInv_step (cp : Str) {F : List Str} {s : NavState} (e : NavEvent)
    (h : NavInv cp F s) : NavInv cp (F ++ rawFoldersOf e) (step cp s e) := by
  have hsub : ∀ f ∈ F, f ∈ F ++ rawFoldersOf e := fun f hf => List.mem_append_left _ hf
  obtain ⟨hpath, hfolders⟩ := h
  cases e with
  | enterFolder idx =>
    cases hget : s.folders.get? idx with
    | none =>
      simp only [step, hget]
      exact ⟨derivedPath_mono hsub hpath, foldersFrom_mono hsub hfolders⟩
    | some entry =>
      simp only [step, hget]
      obtain ⟨f, hf, hef⟩ := hfolders entry (List.get?_mem hget)
      refine ⟨Or.inr ⟨f, hsub f hf,
        (mkFolderEntry (ensureTrailingSlash cp) f).segments.length, ?_⟩,
        foldersFrom_mono hsub hfolders⟩
      rw [List.take_length, hef]
      rfl
  | breadcrumb n =>
    simp only [step, issueFetch]
    refine ⟨?_, foldersFrom_mono hsub hfolders⟩
    rcases hpath with hnil | ⟨f, hf, m, hm⟩
    · rw [hnil]
      exact Or.inl (List.take_nil)
    · exact Or.inr ⟨f, hsub f hf, min n m, by rw [hm, List.take_take]⟩
  | select k =>
    exact ⟨derivedPath_mono hsub hpath, foldersFrom_mono hsub hfolders⟩
  | resolve id res =>
    cases hfind : s.pending.find? (fun p => p.1 = id) with
    | none =>
      simp only [step, hfind]
      exact ⟨derivedPath_mono hsub hpath, foldersFrom_mono hsub hfolders⟩
    | some q =>
      simp only [step, hfind]
      cases res with
      | ok L =>
        refine ⟨derivedPath_mono hsub hpath, ?_⟩
        intro e2 he2
        simp only [applyListing, projectListing, List.mem_map] at he2
        obtain ⟨f, hf, hef⟩ := he2
        exact ⟨f, List.mem_append_right F hf, hef.symm⟩
      | error msg =>
        refine ⟨derivedPath_mono hsub hpath, ?_⟩
        intro e2 he2
        simp [applyListing] at he2

theorem navInv_run (cp : Str) : ∀ (es : List NavEvent) (F : List Str) (s : NavState),
    NavInv cp F s → NavInv cp (F ++ allRawFolders es) (es.foldl (step cp) s)
  | [], F, s, h => by
    simpa [allRawFolders] using h
  | e :: es, F, s, h => by
    have h2 := navInv_run cp es (F ++ rawFoldersOf e) (step cp s e) (navInv_step cp e h)
    rw [List.foldl_cons,
      show allRawFolders (e :: es) = rawFoldersOf e ++ allRawFolders es from rfl,
      ← List.append_assoc]
    exact h2

/-- Claim C5, counterexample.  The code does not sanitize folder names
coming from the backend listing: over a listing containing the folder
marker `"../"`, `enterFolder` yields a reachable `currentPath` equal to
`[".."]`, contradicting "no sequence of enterFolder/jumpToBreadcrumb
operations yields a currentPath containing `..`". -/
theorem claim_C5_counterexample :
    (run [] [NavEvent.resolve 0 (.ok { folders := [String.toList "../"], files := [] }),
      .enterFolder 0]).folderPath = [String.toList ".."] := by
  decide

/-- Claim C5, amended.  The effective prefix sent to the backend always
extends the base prefix as a string, and every reachable `currentPath` is
either the initial empty path or a breadcrumb-reachable front of the
segment chain of a folder entry projected from a raw folder string of some
prior listing response — but those segments are taken verbatim from the
backend, so a listing containing a `".."` component yields a currentPath
containing `".."`. -/
theorem claim_C5_amended (connPfx : Str) (events : List NavEvent) :
    (∀ (b : Str) (segs : List Str), b <+: composePrefix b segs) ∧
    DerivedPath connPfx (allRawFolders events) (run connPfx events).folderPath := by
  refine ⟨composePrefix_extends, ?_⟩
  have hinit : NavInv connPfx [] initState := by
    refine ⟨Or.inl rfl, ?_⟩
    intro e he
    simp [initState] at he
  have h := navInv_run connPfx events [] initState hinit
  rw [List.nil_append] at h
  exact h.1

/-- Claim C1, counterexample.  The code applies every listing result that
completes, with no staleness check: after navigating to `a` (fetch 1) and
then to `b` (fetch 2), if fetch 2 resolves before fetch 1, the final state
has `folderPath = ["b"]` but shows folder `a`'s listing (`a/x`), not
`b`'s — the superseded result is applied, not discarded. -/
theorem claim_C1_counterexample :
    (run [] staleTrace).folderPath = [String.toList "b"] ∧
    (run [] staleTrace).files.map (fun f => f.key) = [String.toList "a/x"] ∧
    (run [] staleTrace).files.map (fun f => f.key) ≠ [String.toList "b/y"] := by
  decide

/-- Claim C1, amended.  Listing results are applied in completion order
with no sequence-number or staleness check: in the two-navigation scenario
(enter folder `i`, then folder `j`, with the second fetch resolving first
and the first fetch resolving last), the final state's folders and files
are the projection of the *first* navigation's listing at its captured
segments, while `folderPath` is the second navigation's target — the view
is clobbered by the stale result instead of reflecting T2's listing. -/
theorem claim_C1_amended (connPfx : Str) (L0 La Lb : RawListing) (i j : Nat)
    (eI eJ : FolderEntry)
    (hi : (projectListing connPfx [] L0).1.get? i = some eI)
    (hj : (projectListing connPfx [] L0).1.get? j = some eJ) :
    (run connPfx [.resolve 0 (.ok L0), .enterFolder i, .enterFolder j,
      .resolve 2 (.ok Lb), .resolve 1 (.ok La)]).folderPath = eJ.segments ∧
    (run connPfx [.resolve 0 (.ok L0), .enterFolder i, .enterFolder j,
      .resolve 2 (.ok Lb), .resolve 1 (.ok La)]).folders =
      (projectListing connPfx eI.segments La).1 ∧
    (run connPfx [.resolve 0 (.ok L0), .enterFolder i, .enterFolder j,
      .resolve 2 (.ok Lb), .resolve 1 (.ok La)]).files =
      (projectListing connPfx eI.segments La).2 ∧
    (run connPfx [.resolve 0 (.ok L0), .enterFolder i, .enterFolder j,
      .resolve 2 (.ok Lb), .resolve 1 (.ok La)]).selectedFileKey = none := by
  have h1 : step connPfx initState (.resolve 0 (.ok L0)) =
      ⟨[], (projectListing connPfx [] L0).1, (projectListing connPfx [] L0).2,
        none, none, [], 1⟩ := rfl
  have h2 : step connPfx
      ⟨[], (projectListing connPfx [] L0).1, (projectListing connPfx [] L0).2,
        none, none, [], 1⟩ (.enterFolder i) =
      ⟨eI.segments, (projectListing connPfx [] L0).1, (projectListing connPfx [] L0).2,
        none, none, [(1, eI.segments)], 2⟩ := by
    simp only [step, hi]
    rfl
  have h3 : step connPfx
      ⟨eI.segments, (projectListing connPfx [] L0).1, (projectListing connPfx [] L0).2,
        none, none, [(1, eI.segments)], 2⟩ (.enterFolder j) =
      ⟨eJ.segments, (projectListing connPfx [] L0).1, (projectListing connPfx [] L0).2,
        none, none, [(1, eI.segments), (2, eJ.segments)], 3⟩ := by
    simp only [step, hj]
    rfl
  have h4 : step connPfx
      ⟨eJ.segments, (projectListing connPfx [] L0).1, (projectListing connPfx [] L0).2,
        none, none, [(1, eI.segments), (2, eJ.segments)], 3⟩ (.resolve 2 (.ok Lb)) =
      ⟨eJ.segments, (projectListing connPfx eJ.segments Lb).1,
        (projectListing connPfx eJ.segments Lb).2,
        none, none, [(1, eI.segments)], 3⟩ := rfl
  have h5 : step connPfx
      ⟨eJ.segments, (projectListing connPfx eJ.segments Lb).1,
        (projectListing connPfx eJ.segments Lb).2,
        none, none, [(1, eI.segments)], 3⟩ (.resolve 1 (.ok La)) =
      ⟨eJ.segments, (projectListing connPfx eI.segments La).1,
        (projectListing connPfx eI.segments La).2,
        none, none, [], 3⟩ := rfl
  have hrun : run connPfx [.resolve 0 (.ok L0), .enterFolder i, .enterFolder j,
      .resolve 2 (.ok Lb), .resolve 1 (.ok La)] =
      ⟨eJ.segments, (projectListing connPfx eI.segments La).1,
        (projectListing connPfx eI.segments La).2, none, none, [], 3⟩ := by
    show step connPfx (step connPfx (step connPfx (step connPfx (step connPfx initState
      (.resolve 0 (.ok L0))) (.enterFolder i)) (.enterFolder j))
      (.resolve 2 (.ok Lb))) (.resolve 1 (.ok La)) = _
    rw [h1, h2, h3, h4, h5]
  rw [hrun]
  exact ⟨rfl, rfl, rfl, rfl⟩

/-- Claim C1, witness: the concrete stale-fetch trace, where `eI` and `eJ`
are the projected entries of `a/` and `b/`. -/
theorem claim_C1_witness :
    (run [] staleTrace).folderPath =
      (mkFolderEntry (ensureTrailingSlash []) (String.toList "b/")).segments ∧
    (run [] staleTrace).folders =
      (projectListing []
        (mkFolderEntry (ensureTrailingSlash []) (String.toList "a/")).segments sampleLa).1 ∧
    (run [] staleTrace).files =
      (projectListing []
        (mkFolderEntry (ensureTrailingSlash []) (String.toList "a/")).segments sampleLa).2 ∧
    (run [] staleTrace).selectedFileKey = none :=
  claim_C1_amended [] sampleL0 sampleLa sampleLb 0 1
    (mkFolderEntry (ensureTrailingSlash []) (String.toList "a/"))
    (mkFolderEntry (ensureTrailingSlash []) (String.toList "b/"))
    (by decide) (by decide)

end OmxData
